import Mathlib

/-!
Shallow embedding of the distributed AMG preconditioner core from
`amgcl/mpi/amg.hpp` (class `amgcl::mpi::amg`).

Modelling choices (single process view; the MPI collectives are opaque to the
cycle/seq control flow verified here):

* Vectors are total functions `Nat → ℚ` (`Vec`), so vector arithmetic is
  pointwise and dimension bookkeeping is not needed for the backend
  primitives `spmv`, `residual`, `clear`, `copy`.
* A `distributed_matrix` is an opaque capability `DMatrix`: its global row
  and column counts plus the action `mul : Vec → Vec` used by `backend::spmv`.
* The coarsening collaborator (`Coarsening::transfer_operators` /
  `Coarsening::coarse_operator`) and the relaxation collaborator
  (`relax_type::apply_pre` / `apply_post`) are oracles supplied as
  parameters, exactly as they are template parameters in the source.
* `Backend::create_vector` allocates a work vector; its initial content is
  never read before being written on the paths verified here, and the model
  fixes it to the zero function.
* `move_to_backend` is a data-representation conversion with no effect on
  the quantities modelled here, so it is omitted.
* The `std::list<level>` is a `List Level`; the construction loop in
  `amg::init` is written with the level count `n` threaded explicitly
  (standing for `levels.size()`) and the appended suffix returned, which is
  the same accumulation the C++ loop performs with `push_back`/`back`.
  Loop fuel is `prm.max_levels`: each iteration of the C++ `while` requires
  `levels.size() < max_levels` and then grows the list by one, so the
  iteration count is bounded by `max_levels - levels.size()`, and with the
  canonical call (`fuel = max_levels`, `n = 0`) the fuel-exhaustion branch
  returns exactly what the failing loop guard would return.
-/

namespace AMG

abbrev Vec : Type := Nat → ℚ

/-- backend::clear — write zeros. -/
def vclear : Vec := fun _ => 0

/-- backend::spmv — the general scaled product y = alpha * M * v + beta * y. -/
def spmv (a : ℚ) (M : Vec → Vec) (v : Vec) (b : ℚ) (y : Vec) : Vec :=
  fun i => a * M v i + b * y i

/-- backend::residual — t = rhs - A * x. -/
def residual (rhs : Vec) (M : Vec → Vec) (x : Vec) : Vec :=
  fun i => rhs i - M x i

/-- distributed_matrix: global dimensions and the matrix action used by spmv. -/
structure DMatrix where
  glob_rows : Nat
  glob_cols : Nat
  mul : Vec → Vec

/-- The relaxation collaborator bound to a level: apply_pre / apply_post take
the level matrix, rhs, iterate x and scratch t, and return the updated (x, t). -/
structure RelaxOracle where
  pre : (Vec → Vec) → Vec → Vec → Vec → Vec × Vec
  post : (Vec → Vec) → Vec → Vec → Vec → Vec × Vec

/-- The coarsening collaborator: transfer_operators A = (P, R), and
coarse_operator A P R = the next-coarser operator. -/
structure Coarsening where
  transfer_operators : DMatrix → DMatrix × DMatrix
  coarse_operator : DMatrix → DMatrix → DMatrix → DMatrix

/-- amg::params — the numeric configuration fields (the nested coarsening and
relaxation parameter sets are owned by the collaborator oracles). Defaults in
the C++ default constructor: coarse_enough = 1024,
max_levels = numeric_limits of unsigned = 4294967295, npre = npost = ncycle =
pre_cycles = 1. -/
structure Params where
  coarse_enough : Nat
  max_levels : Nat
  npre : Nat
  npost : Nat
  ncycle : Nat
  pre_cycles : Nat

/-- The default-constructed params. -/
def Params.default : Params := ⟨1024, 4294967295, 1, 1, 1, 1⟩

/-- amg::params::params(ptree): after importing the values, checks
`precondition(max_levels > 0, "max_levels should be positive")`. -/
def paramsFromTree (p : Params) : Except String Params :=
  if p.max_levels > 0 then .ok p else .error "max_levels should be positive"

/-- One level of the hierarchy: operator A, transfer operators P and R
(absent until step_down assigns them, absent on a level never stepped down),
work vectors f, u, t, and the relaxation instance bound to A. -/
structure Level where
  A : DMatrix
  P : Option DMatrix
  R : Option DMatrix
  f : Vec
  u : Vec
  t : Vec
  relax : RelaxOracle

/-- level::level(A, prm, bprm): store A, allocate f, u, t of local size, and
build the relaxation object from A. -/
def mkLevel (Rx : DMatrix → RelaxOracle) (A : DMatrix) : Level :=
  ⟨A, none, none, vclear, vclear, vclear, Rx A⟩

/-- Assignment of the transfer operators into a level
(`boost::tie(P, R) = ...` inside level::step_down). -/
def setPR (l : Level) (P R : DMatrix) : Level :=
  ⟨l.A, some P, some R, l.f, l.u, l.t, l.relax⟩

/-- Overwrite a level's scratch t (the in-place writes to `*lvl->t`). -/
def setT (l : Level) (t : Vec) : Level :=
  ⟨l.A, l.P, l.R, l.f, l.u, t, l.relax⟩

/-- Overwrite a level's f vector (the write to `*nxt->f` by restriction). -/
def setF (l : Level) (f : Vec) : Level :=
  ⟨l.A, l.P, l.R, f, l.u, l.t, l.relax⟩

/-- Overwrite a level's u vector (clearing `*nxt->u`, and the recursive cycle
mutating it through the reference passed as x). -/
def setU (l : Level) (u : Vec) : Level :=
  ⟨l.A, l.P, l.R, l.f, u, l.t, l.relax⟩

/-- level::step_down: obtain (P, R) from the coarsening, and if P has zero
global columns report a degenerate coarse level (null coarse matrix);
otherwise build the coarse operator. Returns the assigned P and R together
with the optional coarse matrix. -/
def step_down (C : Coarsening) (A : DMatrix) : DMatrix × DMatrix × Option DMatrix :=
  let pr := C.transfer_operators A
  if pr.1.glob_cols = 0 then (pr.1, pr.2, none)
  else (pr.1, pr.2, some (C.coarse_operator A pr.1 pr.2))

/-- The while loop of amg::init. `n` is the current `levels.size()`; the
returned list is the suffix of levels appended from here on, and the returned
option is the pending matrix `A` after the loop (`none` when the loop nulled
it on degenerate coarsening). Fuel decreases once per iteration; called with
`fuel = prm.max_levels` and `n = 0` the fuel never runs out before the loop
guard fails, and the fuel-0 branch coincides with the guard-failure exit. -/
def initLoop (C : Coarsening) (Rx : DMatrix → RelaxOracle) (prm : Params) :
    Nat → Nat → DMatrix → List Level × Option DMatrix
  | 0, _, A => ([], some A)
  | fuel + 1, n, A =>
    if A.glob_rows > prm.coarse_enough ∧ n < prm.max_levels then
      -- levels.push_back(level(A, prm, bprm)); size becomes n + 1
      if n + 1 ≥ prm.max_levels then ([mkLevel Rx A], some A)
      else
        match step_down C A with
        | (P, R, none) => ([setPR (mkLevel Rx A) P R], none)
        | (P, R, some Ac) =>
          let rest := initLoop C Rx prm fuel (n + 1) Ac
          (setPR (mkLevel Rx A) P R :: rest.1, rest.2)
    else ([], some A)

/-- The body of amg::init after the squareness precondition: run the loop,
then, if a pending matrix remains, append it as the last level. -/
def initLevels (C : Coarsening) (Rx : DMatrix → RelaxOracle) (prm : Params)
    (A : DMatrix) : List Level :=
  match initLoop C Rx prm prm.max_levels 0 A with
  | (levels, some A') => levels ++ [mkLevel Rx A']
  | (levels, none) => levels

/-- amg::init: `mpi::precondition(comm, glob_rows == glob_cols, "Matrix
should be square!")`, then build the hierarchy. -/
def amgInit (C : Coarsening) (Rx : DMatrix → RelaxOracle) (prm : Params)
    (A : DMatrix) : Except String (List Level) :=
  if A.glob_rows = A.glob_cols then .ok (initLevels C Rx prm A)
  else .error "Matrix should be square!"

/-- Dereference of a level's P or R as done by `*lvl->P` / `*lvl->R` in the
cycle. A null pointer dereference is undefined in C++; the model totalises it
with a zero matrix, and all theorems about the recursive case concern levels
whose P and R were assigned by step_down. -/
def derefM (o : Option DMatrix) : DMatrix :=
  o.getD ⟨0, 0, fun _ => vclear⟩

/-- The `for(i = 0; i < count; ++i) relax->apply_*(A, rhs, x, t, ...)` loops:
iterate a relaxation step `count` times on the pair (x, t). -/
def sweeps (step : (Vec → Vec) → Vec → Vec → Vec → Vec × Vec)
    (M : Vec → Vec) (rhs : Vec) : Nat → Vec × Vec → Vec × Vec
  | 0, s => s
  | k + 1, s => sweeps step M rhs k (step M rhs s.1 s.2)

/-- The state one invocation of the private amg::cycle acts on: the level
chain from the current level down (scratch vectors live inside the levels)
together with the iterate x of the current level. -/
abbrev CState : Type := List Level × Vec

/-- The recursive call `cycle(nxt, *nxt->f, *nxt->u)` mutates `*nxt->u` (the
x of the recursion) in place; in the value-passing model this is the
write-back of the returned iterate into the head of the returned chain. -/
def writeBackU (r : List Level × Vec) : List Level :=
  match r.1 with
  | nh :: nr => setU nh r.2 :: nr
  | [] => []

/-- The body of the `for (j = 0; j < prm.ncycle; ++j)` loop in the recursive
case of amg::cycle, as a transformer of (levels-from-here-down, x).
`recur` is the recursive call for the next-coarser chain. In order:
npre apply_pre sweeps; backend::residual into t; backend::spmv(1, R, t, 0,
nxt.f); backend::clear(nxt.u); the recursive cycle on (nxt.f, nxt.u), whose
in-place mutation of `*nxt->u` is the write-back of the returned iterate into
the head of the returned chain; backend::spmv(1, P, nxt.u, 1, x); npost
apply_post sweeps. States that are not of the recursive shape are returned
unchanged (the body is only ever applied to a chain of two or more levels). -/
def cycleBody (prm : Params)
    (recur : List Level → Vec → Vec → List Level × Vec) (rhs : Vec) :
    CState → CState
  | (l :: nxt :: rest, x) =>
    let s1 := sweeps l.relax.pre l.A.mul rhs prm.npre (x, l.t)
    let t2 := residual rhs l.A.mul s1.1
    let f2 := spmv 1 (derefM l.R).mul t2 0 nxt.f
    let u2 := vclear
    let r := recur (setU (setF nxt f2) u2 :: rest) f2 u2
    let sub := writeBackU r
    let x2 := spmv 1 (derefM l.P).mul r.2 1 s1.1
    let s3 := sweeps l.relax.post l.A.mul rhs prm.npost (x2, t2)
    (setT l s3.2 :: sub, s3.1)
  | s => s

/-- The private amg::cycle(lvl, rhs, x). The level iterator is the head of
the list. Terminal case (`nxt == end`): one apply_pre then one apply_post,
in place on x against rhs with the level's t as scratch. Recursive case: the
loop body above, ncycle times. Fuel bounds the recursion depth by the chain
length; the entry points pass `fuel = levels.length`, so the fuel-exhaustion
branch (which needs a chain of ≥ 2 levels with fuel 0) is never reached. -/
def cycleRec (prm : Params) : Nat → List Level → Vec → Vec → List Level × Vec
  | _, [], _, x => ([], x)
  | _, [lvl], rhs, x =>
    let s1 := lvl.relax.pre lvl.A.mul rhs x lvl.t
    let s2 := lvl.relax.post lvl.A.mul rhs s1.1 s1.2
    ([setT lvl s2.2], s2.1)
  | 0, l :: nxt :: rest, _, x => (l :: nxt :: rest, x)
  | fuel + 1, l :: nxt :: rest, rhs, x =>
    (cycleBody prm (fun ls r y => cycleRec prm fuel ls r y) rhs)^[prm.ncycle]
      (l :: nxt :: rest, x)

/-- The public amg::cycle(rhs, x): one multilevel cycle from the finest
level (levels.begin()), acting on the caller-supplied x in place. -/
def cycle (prm : Params) (lvls : List Level) (rhs x : Vec) : List Level × Vec :=
  cycleRec prm lvls.length lvls rhs x

/-- One iteration of the `for(i = 0; i < prm.pre_cycles; ++i)` loop of
amg::apply: a full cycle from the finest level, threading the mutated
hierarchy scratch state and x. -/
def cycleStep (prm : Params) (rhs : Vec) (s : List Level × Vec) :
    List Level × Vec :=
  cycle prm s.1 rhs s.2

/-- amg::apply(rhs, x): if pre_cycles is nonzero, backend::clear(x) then
pre_cycles full cycles in sequence; otherwise backend::copy(rhs, x). -/
def apply (prm : Params) (lvls : List Level) (rhs x : Vec) :
    List Level × Vec :=
  if prm.pre_cycles ≠ 0 then
    (cycleStep prm rhs)^[prm.pre_cycles] (lvls, vclear)
  else (lvls, rhs)

/-!
Specification-side definitions. The seven numbered steps of the spec's
recursive case (section 4.2) are written as separate state transformers,
following the spec's words: restriction overwrites (`f = R · t`, scale 1, no
accumulation), prolongation accumulates (`x += P · u`). Their composition,
iterated ncycle times, is compared with the translated cycle body. Each step
acts on the non-terminal shape (a chain of at least two levels) and leaves
any other state unchanged. -/

/-- Spec step 1: npre pre-relaxation sweeps of x against rhs. -/
def specPreRelax (prm : Params) (rhs : Vec) : CState → CState
  | (l :: nxt :: rest, x) =>
    let s := sweeps l.relax.pre l.A.mul rhs prm.npre (x, l.t)
    (setT l s.2 :: nxt :: rest, s.1)
  | s => s

/-- Spec step 2: the residual rhs - A x computed into the level's scratch t. -/
def specResidual (rhs : Vec) : CState → CState
  | (l :: nxt :: rest, x) =>
    (setT l (residual rhs l.A.mul x) :: nxt :: rest, x)
  | s => s

/-- Spec step 3: restriction of t by R into the next level's f, scale 1 and
no accumulation. -/
def specRestrict : CState → CState
  | (l :: nxt :: rest, x) =>
    (l :: setF nxt ((derefM l.R).mul l.t) :: rest, x)
  | s => s

/-- Spec step 4: clearing the next level's u to zero. -/
def specClearNext : CState → CState
  | (l :: nxt :: rest, x) => (l :: setU nxt vclear :: rest, x)
  | s => s

/-- Spec step 5: a recursive cycle at the next level on (f, u); the cycle
mutates the next level's u in place. -/
def specRecurse (prm : Params) (fuel : Nat) : CState → CState
  | (l :: nxt :: rest, x) =>
    let r := cycleRec prm fuel (nxt :: rest) nxt.f nxt.u
    (l :: writeBackU r, x)
  | s => s

/-- Spec step 6: prolongation-correction x += P * u, accumulating into the
existing x. -/
def specProlong : CState → CState
  | (l :: nxt :: rest, x) =>
    (l :: nxt :: rest, fun i => x i + (derefM l.P).mul nxt.u i)
  | s => s

/-- Spec step 7: npost post-relaxation sweeps of x against rhs. -/
def specPostRelax (prm : Params) (rhs : Vec) : CState → CState
  | (l :: nxt :: rest, x) =>
    let s := sweeps l.relax.post l.A.mul rhs prm.npost (x, l.t)
    (setT l s.2 :: nxt :: rest, s.1)
  | s => s

/-- The spec's recursive case: the seven steps composed in the stated fixed
order (step 1 applied first). -/
def specCycle (prm : Params) (fuel : Nat) (rhs : Vec) : CState → CState :=
  specPostRelax prm rhs ∘ specProlong ∘ specRecurse prm fuel ∘
    specClearNext ∘ specRestrict ∘ specResidual rhs ∘ specPreRelax prm rhs

/-!
Chain predicates over a built hierarchy, for the level invariant claims.
Nullity of P and R and the recorded global dimensions are expressed through
`Option.map`, which simultaneously captures presence and the stored count. -/

/-- Two consecutive levels are linked: P and R are non-null and their global
dimensions match the next level's size (P.glob_cols == R.glob_rows == next
level's glob_rows). -/
def linkOK (l nxt : Level) : Prop :=
  l.P.map (fun p => p.glob_cols) = some nxt.A.glob_rows ∧
  l.R.map (fun r => r.glob_rows) = some nxt.A.glob_rows

/-- The coarsest level as the claim states it: P and R both null. -/
def lastNull (l : Level) : Prop :=
  l.P.isNone = true ∧ l.R.isNone = true

/-- The coarsest level as the code builds it: P and R both null, or the
degenerate pair left in place by step_down (non-null P with zero global
columns, non-null R). -/
def lastNullOrDegenerate (l : Level) : Prop :=
  (l.P.isNone = true ∧ l.R.isNone = true) ∨
  (l.P.map (fun p => p.glob_cols) = some 0 ∧ l.R.isSome = true)

/-- The whole-hierarchy invariant: consecutive levels linked, and the last
level satisfying the given terminal predicate. -/
def linked (lastP : Level → Prop) : List Level → Prop
  | [] => True
  | [l] => lastP l
  | l :: nxt :: rest => linkOK l nxt ∧ linked lastP (nxt :: rest)

/-- The interface contract of the coarsening collaborator (spec section 3,
Level invariant): the transfer operators it returns satisfy
R.glob_rows == P.glob_cols, and the coarse operator it builds has
glob_rows == P.glob_cols. -/
def dimContract (C : Coarsening) : Prop :=
  ∀ A : DMatrix,
    (C.transfer_operators A).2.glob_rows = (C.transfer_operators A).1.glob_cols ∧
    (C.coarse_operator A (C.transfer_operators A).1
        (C.transfer_operators A).2).glob_rows =
      (C.transfer_operators A).1.glob_cols

/-!
Concrete collaborator instances and inputs, used to instantiate the theorems
at explicit points. -/

/-- A square 2000 x 2000 matrix, above the default coarse_enough = 1024. -/
def A2000 : DMatrix := ⟨2000, 2000, fun v => v⟩

/-- A square 100 x 100 matrix, below the default coarse_enough = 1024. -/
def A100 : DMatrix := ⟨100, 100, fun v => v⟩

/-- A non-square 3 x 4 matrix. -/
def A34 : DMatrix := ⟨3, 4, fun v => v⟩

/-- A relaxation collaborator that returns its inputs unchanged. -/
def RxId : DMatrix → RelaxOracle :=
  fun _ => ⟨fun _ _ x t => (x, t), fun _ _ x t => (x, t)⟩

/-- A coarsening collaborator that halves the number of rows and satisfies
the dimension contract. -/
def coarsenHalf : Coarsening :=
  ⟨fun A => (⟨A.glob_rows, A.glob_rows / 2, fun v => v⟩,
             ⟨A.glob_rows / 2, A.glob_rows, fun v => v⟩),
   fun _ P _ => ⟨P.glob_cols, P.glob_cols, fun v => v⟩⟩

/-- A coarsening collaborator whose transfer operator P has zero global
columns on every input (the degenerate case of step_down). -/
def coarsenZero : Coarsening :=
  ⟨fun A => (⟨A.glob_rows, 0, fun v => v⟩, ⟨0, A.glob_rows, fun v => v⟩),
   fun _ P _ => ⟨P.glob_cols, P.glob_cols, fun v => v⟩⟩

/-- Default params with max_levels = 1. -/
def prmML1 : Params := ⟨1024, 1, 1, 1, 1, 1⟩

/-- Default params with max_levels = 0 (set directly, not via the ptree
constructor). -/
def prmML0 : Params := ⟨1024, 0, 1, 1, 1, 1⟩

/-- Default params with max_levels = 10. -/
def prmML10 : Params := ⟨1024, 10, 1, 1, 1, 1⟩

/-- Params with ncycle = 0 and pre_cycles = 2. -/
def prmNC0 : Params := ⟨1024, 10, 1, 1, 0, 2⟩

/-- Params with pre_cycles = 0. -/
def prmPC0 : Params := ⟨1024, 10, 1, 1, 1, 0⟩

/-- A sample right-hand side. -/
def rhs1 : Vec := fun i => (i : ℚ) + 1

/-- A sample initial iterate. -/
def x1 : Vec := fun i => (i : ℚ) - 5

/-!
Helper lemmas. -/

/-- A scaled product with alpha = 1, beta = 0 overwrites: it is the plain
matrix action. -/
theorem spmv_restrict (M : Vec → Vec) (v y : Vec) : spmv 1 M v 0 y = M v := by
  funext i
  simp [spmv]

/-- A scaled product with alpha = 1, beta = 1 accumulates into the existing
vector. -/
theorem spmv_accumulate (M : Vec → Vec) (v y : Vec) :
    spmv 1 M v 1 y = fun i => y i + M v i := by
  funext i
  simp [spmv, add_comm]

theorem writeBackU_length (r : List Level × Vec) :
    (writeBackU r).length = r.1.length := by
  obtain ⟨ls, y⟩ := r
  cases ls <;> simp [writeBackU]

theorem setT_A (l : Level) (v : Vec) : (setT l v).A = l.A := rfl

theorem setT_P (l : Level) (v : Vec) : (setT l v).P = l.P := rfl

theorem setT_R (l : Level) (v : Vec) : (setT l v).R = l.R := rfl

theorem setT_t (l : Level) (v : Vec) : (setT l v).t = v := rfl

theorem setT_relax (l : Level) (v : Vec) : (setT l v).relax = l.relax := rfl

theorem setT_setT (l : Level) (v w : Vec) : setT (setT l v) w = setT l w := rfl

theorem setF_f (l : Level) (v : Vec) : (setF l v).f = v := rfl

theorem setU_f (l : Level) (v : Vec) : (setU l v).f = l.f := rfl

theorem setU_u (l : Level) (v : Vec) : (setU l v).u = v := rfl

theorem cycleBody_fst_length (prm : Params)
    (recur : List Level → Vec → Vec → List Level × Vec) (rhs : Vec)
    (hrec : ∀ ls r y, (recur ls r y).1.length = ls.length) (s : CState) :
    (cycleBody prm recur rhs s).1.length = s.1.length := by
  obtain ⟨ls, x⟩ := s
  match ls with
  | [] => rfl
  | [l] => rfl
  | l :: nxt :: rest =>
    simp only [cycleBody, List.length_cons, writeBackU_length, hrec]

theorem cycleRec_fst_length (prm : Params) (fuel : Nat) (ls : List Level)
    (rhs x : Vec) : (cycleRec prm fuel ls rhs x).1.length = ls.length := by
  induction fuel generalizing ls rhs x with
  | zero =>
    match ls with
    | [] => rfl
    | [l] => rfl
    | l :: nxt :: rest => rfl
  | succ fuel ih =>
    match ls with
    | [] => rfl
    | [l] => rfl
    | l :: nxt :: rest =>
      have hiter : ∀ (k : Nat) (s : CState),
          ((cycleBody prm (fun a b c => cycleRec prm fuel a b c)
            rhs)^[k] s).1.length = s.1.length := by
        intro k
        induction k with
        | zero => intro s; rfl
        | succ k ihk =>
          intro s
          rw [Function.iterate_succ_apply, ihk]
          exact cycleBody_fst_length prm _ rhs (fun a b c => ih a b c) s
      exact hiter prm.ncycle (l :: nxt :: rest, x)

/-- The cycle engine never empties the level chain. -/
theorem cycleRec_cons_shape (prm : Params) (fuel : Nat) (a : Level)
    (tail : List Level) (r y : Vec) :
    ∃ nh nr, (cycleRec prm fuel (a :: tail) r y).1 = nh :: nr := by
  have hl := cycleRec_fst_length prm fuel (a :: tail) r y
  cases h : (cycleRec prm fuel (a :: tail) r y).1 with
  | nil => rw [h] at hl; simp at hl
  | cons nh nr => exact ⟨nh, nr, rfl⟩

/-- On a chain of at least two levels, the translated loop body of
amg::cycle coincides with the composition of the spec's seven steps. -/
theorem cycleBody_eq_spec_pointwise (prm : Params) (fuel : Nat) (rhs : Vec)
    (l nxt : Level) (rest : List Level) (x : Vec) :
    cycleBody prm (fun ls r y => cycleRec prm fuel ls r y) rhs
        (l :: nxt :: rest, x)
      = specCycle prm fuel rhs (l :: nxt :: rest, x) := by
  obtain ⟨nh, nr, hsh⟩ := cycleRec_cons_shape prm fuel
    (setU (setF nxt ((derefM l.R).mul
      (residual rhs l.A.mul
        (sweeps l.relax.pre l.A.mul rhs prm.npre (x, l.t)).1))) vclear)
    rest
    ((derefM l.R).mul
      (residual rhs l.A.mul
        (sweeps l.relax.pre l.A.mul rhs prm.npre (x, l.t)).1))
    vclear
  simp only [cycleBody, specCycle, Function.comp_apply, specPreRelax,
    specResidual, specRestrict, specClearNext, specRecurse, specProlong,
    specPostRelax, spmv_restrict, spmv_accumulate,
    setT_A, setT_P, setT_R, setT_t, setT_relax, setT_setT,
    setF_f, setU_f, setU_u, hsh, writeBackU]

theorem iterate_body_eq_spec (prm : Params) (fuel : Nat) (rhs : Vec) (k : Nat) :
    ∀ (l nxt : Level) (rest : List Level) (x : Vec),
    (cycleBody prm (fun ls r y => cycleRec prm fuel ls r y) rhs)^[k]
        (l :: nxt :: rest, x)
      = (specCycle prm fuel rhs)^[k] (l :: nxt :: rest, x) := by
  induction k with
  | zero => intro l nxt rest x; rfl
  | succ k ih =>
    intro l nxt rest x
    rw [Function.iterate_succ_apply, Function.iterate_succ_apply,
      cycleBody_eq_spec_pointwise]
    have hlen : (specCycle prm fuel rhs (l :: nxt :: rest, x)).1.length
        = rest.length + 2 := by
      rw [← cycleBody_eq_spec_pointwise]
      exact cycleBody_fst_length prm _ rhs
        (fun a b c => cycleRec_fst_length prm fuel a b c) _
    obtain ⟨a, b, c, y, hs⟩ : ∃ a b c y,
        specCycle prm fuel rhs (l :: nxt :: rest, x) = (a :: b :: c, y) := by
      rcases hq : specCycle prm fuel rhs (l :: nxt :: rest, x) with ⟨ls, y⟩
      rw [hq] at hlen
      cases ls with
      | nil => exact absurd hlen (by simp)
      | cons a ls' =>
        cases ls' with
        | nil => exact absurd hlen (by simp)
        | cons b c => exact ⟨a, b, c, y, rfl⟩
    rw [hs]
    exact ih a b c y

/-- Claim C1: at every non-terminal level, one invocation of the cycle
engine performs, ncycle times, exactly the fixed sequence: npre
pre-relaxation sweeps, residual rhs - A x into the level's t, restriction of
t by R into the next level's f (scale 1, no accumulation), clearing of the
next level's u, a recursive cycle at the next level on (f, u),
prolongation-correction x += P u, and npost post-relaxation sweeps. -/
theorem C1_cycle_order (prm : Params) (fuel : Nat) (l nxt : Level)
    (rest : List Level) (rhs x : Vec) :
    cycleRec prm (fuel + 1) (l :: nxt :: rest) rhs x
      = (specCycle prm fuel rhs)^[prm.ncycle] (l :: nxt :: rest, x) := by
  show (cycleBody prm (fun ls r y => cycleRec prm fuel ls r y)
    rhs)^[prm.ncycle] (l :: nxt :: rest, x) = _
  exact iterate_body_eq_spec prm fuel rhs prm.ncycle l nxt rest x

/-- Claim C3: apply(rhs, x) with pre_cycles > 0 first sets x to zero and
then runs the full multilevel cycle from the finest level exactly
pre_cycles times in sequence, each iteration acting on the hierarchy state
and iterate produced by the previous one. -/
theorem C3_apply_pre_cycles (prm : Params) (lvls : List Level) (rhs x : Vec)
    (h : prm.pre_cycles ≠ 0) :
    apply prm lvls rhs x = (cycleStep prm rhs)^[prm.pre_cycles] (lvls, vclear)
    ∧ ∀ (ls : List Level) (y : Vec),
        cycleStep prm rhs (ls, y) = cycle prm ls rhs y := by
  refine ⟨?_, fun ls y => rfl⟩
  simp [apply, h]

theorem C3_witness :
    prmML10.pre_cycles ≠ 0 ∧
    apply prmML10 [mkLevel RxId A100] rhs1 x1
      = (cycleStep prmML10 rhs1)^[prmML10.pre_cycles]
          ([mkLevel RxId A100], vclear) :=
  ⟨by decide,
   (C3_apply_pre_cycles prmML10 [mkLevel RxId A100] rhs1 x1 (by decide)).1⟩

/-- Claim C4: apply(rhs, x) with pre_cycles == 0 performs no cycling and no
relaxation: it only copies rhs into x, so afterwards x equals rhs and the
hierarchy state is untouched. -/
theorem C4_apply_identity (prm : Params) (lvls : List Level) (rhs x : Vec)
    (h : prm.pre_cycles = 0) :
    apply prm lvls rhs x = (lvls, rhs) := by
  simp [apply, h]

theorem C4_witness :
    prmPC0.pre_cycles = 0 ∧
    apply prmPC0 [mkLevel RxId A100] rhs1 x1 = ([mkLevel RxId A100], rhs1) :=
  ⟨by decide, C4_apply_identity prmPC0 [mkLevel RxId A100] rhs1 x1 (by decide)⟩

/-- Claim C9: the public cycle(rhs, x) entry point runs exactly one
multilevel cycle starting at the finest level (the head of the level list),
and does not clear x first: on a single-level hierarchy the caller-supplied
x is fed directly into the relaxation. -/
theorem C9_public_cycle (prm : Params) (lvls : List Level) (rhs x : Vec)
    (lvl : Level) :
    cycle prm lvls rhs x = cycleRec prm lvls.length lvls rhs x
    ∧ cycle prm [lvl] rhs x
        = ([setT lvl (lvl.relax.post lvl.A.mul rhs
              (lvl.relax.pre lvl.A.mul rhs x lvl.t).1
              (lvl.relax.pre lvl.A.mul rhs x lvl.t).2).2],
           (lvl.relax.post lvl.A.mul rhs
              (lvl.relax.pre lvl.A.mul rhs x lvl.t).1
              (lvl.relax.pre lvl.A.mul rhs x lvl.t).2).1) :=
  ⟨rfl, rfl⟩

/-- Claim C10: with ncycle == 0 on a hierarchy of at least two levels, one
cycle performs nothing at all (the state, including every scratch vector,
and x are unchanged), and hence apply with pre_cycles > 0 returns x
identically zero. -/
theorem C10_ncycle_zero (prm : Params) (l1 l2 : Level) (rest : List Level)
    (rhs x : Vec) (hnc : prm.ncycle = 0) :
    cycle prm (l1 :: l2 :: rest) rhs x = (l1 :: l2 :: rest, x)
    ∧ (prm.pre_cycles ≠ 0 →
        apply prm (l1 :: l2 :: rest) rhs x = (l1 :: l2 :: rest, vclear)) := by
  have hgen : ∀ y : Vec, cycle prm (l1 :: l2 :: rest) rhs y
      = (l1 :: l2 :: rest, y) := by
    intro y
    show (cycleBody prm _ rhs)^[prm.ncycle] (l1 :: l2 :: rest, y) = _
    rw [hnc]
    rfl
  refine ⟨hgen x, fun hp => ?_⟩
  have hiter : ∀ k : Nat,
      (cycleStep prm rhs)^[k] (l1 :: l2 :: rest, vclear)
        = (l1 :: l2 :: rest, vclear) := by
    intro k
    induction k with
    | zero => rfl
    | succ k ih =>
      rw [Function.iterate_succ_apply']
      rw [ih]
      exact hgen vclear
  simp only [apply, if_pos hp]
  exact hiter prm.pre_cycles

theorem C10_witness :
    prmNC0.ncycle = 0 ∧ prmNC0.pre_cycles ≠ 0 ∧
    apply prmNC0 [mkLevel RxId A2000, mkLevel RxId A100] rhs1 x1
      = ([mkLevel RxId A2000, mkLevel RxId A100], vclear) :=
  ⟨by decide, by decide,
   (C10_ncycle_zero prmNC0 (mkLevel RxId A2000) (mkLevel RxId A100) [] rhs1 x1
      (by decide)).2 (by decide)⟩

/-- Claim C5: a square input with glob_rows <= coarse_enough yields a
one-level hierarchy, and on the coarsest (single) level the cycle performs
exactly one pre-relaxation followed by one post-relaxation, with no
recursion, for every parameter set (in particular regardless of npre, npost
and ncycle). -/
theorem C5_coarse_level (Co : Coarsening) (Rx : DMatrix → RelaxOracle)
    (prm prm' : Params) (A : DMatrix) (lvl : Level) (rhs x : Vec)
    (fuel : Nat) (hsq : A.glob_rows = A.glob_cols)
    (hsmall : A.glob_rows ≤ prm.coarse_enough) :
    amgInit Co Rx prm A = .ok [mkLevel Rx A]
    ∧ cycleRec prm' fuel [lvl] rhs x
        = ([setT lvl (lvl.relax.post lvl.A.mul rhs
              (lvl.relax.pre lvl.A.mul rhs x lvl.t).1
              (lvl.relax.pre lvl.A.mul rhs x lvl.t).2).2],
           (lvl.relax.post lvl.A.mul rhs
              (lvl.relax.pre lvl.A.mul rhs x lvl.t).1
              (lvl.relax.pre lvl.A.mul rhs x lvl.t).2).1) := by
  constructor
  · have hloop : ∀ (f n : Nat), initLoop Co Rx prm f n A = ([], some A) := by
      intro f n
      cases f with
      | zero => rfl
      | succ k =>
        show (if A.glob_rows > prm.coarse_enough ∧ n < prm.max_levels
          then _ else ([], some A)) = ([], some A)
        rw [if_neg]
        intro ⟨h1, _⟩
        omega
    simp [amgInit, hsq, initLevels, hloop]
  · cases fuel <;> rfl

theorem C5_witness :
    A100.glob_rows = A100.glob_cols ∧
    A100.glob_rows ≤ prmML10.coarse_enough ∧
    amgInit coarsenHalf RxId prmML10 A100 = .ok [mkLevel RxId A100] :=
  ⟨by decide, by decide,
   (C5_coarse_level coarsenHalf RxId prmML10 prmML10 A100 (mkLevel RxId A100)
      rhs1 x1 0 (by decide) (by decide)).1⟩

/-- Claim C2 (code bug): with max_levels = 1 and a 2000 x 2000 matrix above
coarse_enough = 1024, the loop in amg::init pushes the finest level, breaks
on levels.size() >= max_levels with the pending matrix still non-null, and
the trailing `if (A)` then pushes the same matrix again: the built hierarchy
has 2 levels, exceeding max_levels = 1, contradicting the params
documentation of max_levels as the maximum number of levels. -/
theorem C2_max_levels_exceeded :
    (initLevels coarsenHalf RxId prmML1 A2000).length = 2
    ∧ prmML1.max_levels = 1
    ∧ (initLevels coarsenHalf RxId prmML1 A2000).map (fun l => l.A.glob_rows)
        = [2000, 2000] := by
  refine ⟨rfl, rfl, rfl⟩

/-- Claim C8 counterexample: constructing with a directly-built params
having max_levels = 0 is not rejected — amg::init performs no max_levels
check, so construction succeeds (and even returns a 1-level hierarchy). -/
theorem C8_counterexample :
    prmML0.max_levels = 0
    ∧ (amgInit coarsenHalf RxId prmML0 A2000).isOk = true
    ∧ amgInit coarsenHalf RxId prmML0 A2000 = .ok [mkLevel RxId A2000] :=
  ⟨rfl, rfl, rfl⟩

/-- Claim C8 as amended: construction fails exactly on a non-square matrix;
max_levels == 0 is rejected only by the property-tree params constructor,
while amg construction itself accepts any params (in particular
max_levels == 0) for a square matrix. -/
theorem C8_amended_validation (Co : Coarsening) (Rx : DMatrix → RelaxOracle)
    (prm p : Params) (A B : DMatrix)
    (hns : A.glob_rows ≠ A.glob_cols) (hml : p.max_levels = 0)
    (hsq : B.glob_rows = B.glob_cols) :
    amgInit Co Rx prm A = .error "Matrix should be square!"
    ∧ paramsFromTree p = .error "max_levels should be positive"
    ∧ (amgInit Co Rx p B).isOk = true := by
  refine ⟨?_, ?_, ?_⟩
  · simp [amgInit, hns]
  · simp [paramsFromTree, hml]
  · simp [amgInit, hsq, Except.isOk, Except.toBool]

theorem C8_amended_witness :
    (A34.glob_rows ≠ A34.glob_cols ∧ prmML0.max_levels = 0
      ∧ A100.glob_rows = A100.glob_cols)
    ∧ amgInit coarsenHalf RxId prmML10 A34 = .error "Matrix should be square!"
    ∧ paramsFromTree prmML0 = .error "max_levels should be positive"
    ∧ (amgInit coarsenHalf RxId prmML0 A100).isOk = true := by
  have h := C8_amended_validation coarsenHalf RxId prmML10 prmML0 A34 A100
    (by decide) (by decide) (by decide)
  exact ⟨⟨by decide, by decide, by decide⟩, h.1, h.2.1, h.2.2⟩

/-- Claim C6: when a coarsening step yields a prolongation P with zero
global columns, the construction loop stops at the current level (which
keeps the degenerate P and R) without appending anything further, and
construction terminates normally — at the top this means init returns
successfully with the current level as the coarsest. -/
theorem C6_degenerate (Co : Coarsening) (Rx : DMatrix → RelaxOracle)
    (prm : Params) (A : DMatrix) (fuel n : Nat)
    (hbig : A.glob_rows > prm.coarse_enough) (hn : n + 1 < prm.max_levels)
    (hdeg : (Co.transfer_operators A).1.glob_cols = 0) :
    initLoop Co Rx prm (fuel + 1) n A
      = ([setPR (mkLevel Rx A) (Co.transfer_operators A).1
            (Co.transfer_operators A).2], none)
    ∧ (A.glob_rows = A.glob_cols →
        amgInit Co Rx prm A
          = .ok [setPR (mkLevel Rx A) (Co.transfer_operators A).1
                  (Co.transfer_operators A).2]) := by
  have hsd : step_down Co A
      = ((Co.transfer_operators A).1, (Co.transfer_operators A).2, none) := by
    simp [step_down, hdeg]
  have key : ∀ (f m : Nat), m + 1 < prm.max_levels →
      initLoop Co Rx prm (f + 1) m A
        = ([setPR (mkLevel Rx A) (Co.transfer_operators A).1
              (Co.transfer_operators A).2], none) := by
    intro f m hm
    simp only [initLoop]
    rw [if_pos ⟨hbig, by omega⟩, if_neg (by omega), hsd]
  refine ⟨key fuel n hn, fun hsq => ?_⟩
  obtain ⟨k, hk⟩ : ∃ k, prm.max_levels = k + 1 :=
    ⟨prm.max_levels - 1, by omega⟩
  have hl := key k 0 (by omega)
  simp only [amgInit, if_pos hsq, initLevels, hk, hl]

theorem C6_witness :
    (A2000.glob_rows > prmML10.coarse_enough
      ∧ 0 + 1 < prmML10.max_levels
      ∧ (coarsenZero.transfer_operators A2000).1.glob_cols = 0
      ∧ A2000.glob_rows = A2000.glob_cols)
    ∧ amgInit coarsenZero RxId prmML10 A2000
        = .ok [setPR (mkLevel RxId A2000)
                (coarsenZero.transfer_operators A2000).1
                (coarsenZero.transfer_operators A2000).2] :=
  ⟨⟨by decide, by decide, by decide, by decide⟩,
   (C6_degenerate coarsenZero RxId prmML10 A2000 3 0 (by decide) (by decide)
      (by decide)).2 (by decide)⟩

theorem step_down_eq (Co : Coarsening) (A : DMatrix) :
    step_down Co A
      = ((Co.transfer_operators A).1, (Co.transfer_operators A).2,
          if (Co.transfer_operators A).1.glob_cols = 0 then none
          else some (Co.coarse_operator A (Co.transfer_operators A).1
            (Co.transfer_operators A).2)) := by
  unfold step_down
  by_cases h : (Co.transfer_operators A).1.glob_cols = 0 <;> simp [h]

/-- Claim C7 counterexample: a degenerate coarsening step leaves the
coarsest level with non-null P and R (step_down assigns them before
checking P.glob_cols == 0), so the claimed invariant "the coarsest level
has P == R == null" fails on this hierarchy. -/
theorem C7_counterexample :
    ¬ linked lastNull (initLevels coarsenZero RxId prmML10 A2000) := by
  show ¬ linked lastNull [setPR (mkLevel RxId A2000)
    (coarsenZero.transfer_operators A2000).1
    (coarsenZero.transfer_operators A2000).2]
  intro h
  exact absurd h.1 (by decide)

/-- The invariant carried through the construction loop: whatever the loop
returns, the suffix it built is properly linked, the last level is either
transfer-free or the degenerate one, a pending matrix returned with an empty
suffix is the input matrix, and the head of a non-empty suffix carries the
input matrix. The linked conclusion for a pending matrix is guarded by the
level count staying within max_levels, which excludes the max_levels break
path (the C2 bug). -/
theorem initLoop_linked (Co : Coarsening) (Rx : DMatrix → RelaxOracle)
    (prm : Params) (hC : dimContract Co) :
    ∀ (fuel n : Nat) (A : DMatrix),
      (∀ A', (initLoop Co Rx prm fuel n A).2 = some A' →
        ((initLoop Co Rx prm fuel n A).1 = [] → A' = A)
        ∧ (n + (initLoop Co Rx prm fuel n A).1.length + 1 ≤ prm.max_levels →
            linked lastNullOrDegenerate
              ((initLoop Co Rx prm fuel n A).1 ++ [mkLevel Rx A'])))
      ∧ ((initLoop Co Rx prm fuel n A).2 = none →
          (initLoop Co Rx prm fuel n A).1 ≠ [] ∧
          linked lastNullOrDegenerate (initLoop Co Rx prm fuel n A).1)
      ∧ (∀ l ls, (initLoop Co Rx prm fuel n A).1 = l :: ls → l.A = A) := by
  intro fuel
  induction fuel with
  | zero =>
    intro n A
    refine ⟨fun A' hA' => ⟨fun _ => ?_, fun _ => ?_⟩, fun h => ?_, fun l ls h => ?_⟩
    · exact (Option.some.injEq _ _ ▸ hA').symm
    · show linked lastNullOrDegenerate ([] ++ [mkLevel Rx A'])
      exact Or.inl ⟨rfl, rfl⟩
    · exact absurd h (by simp [initLoop])
    · exact absurd h (by simp [initLoop])
  | succ fuel ih =>
    intro n A
    by_cases hg : A.glob_rows > prm.coarse_enough ∧ n < prm.max_levels
    · by_cases hb : n + 1 ≥ prm.max_levels
      · -- the max_levels break: ([mkLevel Rx A], some A)
        have hout : initLoop Co Rx prm (fuel + 1) n A = ([mkLevel Rx A], some A) := by
          simp only [initLoop]
          rw [if_pos hg, if_pos hb]
        rw [hout]
        refine ⟨fun A' hA' => ⟨fun hnil => ?_, fun hle => ?_⟩,
          fun h => by simp at h, fun l ls h => ?_⟩
        · exact absurd hnil (by simp)
        · exact absurd hle (by simp; omega)
        · have : l = mkLevel Rx A := by
            simpa using congrArg (fun t => t.headD l) h.symm
          rw [this]; rfl
      · have hb' : n + 1 < prm.max_levels := by omega
        by_cases hz : (Co.transfer_operators A).1.glob_cols = 0
        · -- degenerate coarsening: stop with the current level keeping P, R
          have hout : initLoop Co Rx prm (fuel + 1) n A
              = ([setPR (mkLevel Rx A) (Co.transfer_operators A).1
                   (Co.transfer_operators A).2], none) := by
            simp only [initLoop]
            rw [if_pos hg, if_neg hb, step_down_eq, if_pos hz]
          rw [hout]
          refine ⟨fun A' hA' => by simp at hA', fun _ => ⟨by simp, ?_⟩,
            fun l ls h => ?_⟩
          · show lastNullOrDegenerate _
            refine Or.inr ⟨?_, rfl⟩
            show (some (Co.transfer_operators A).1).map _ = some 0
            simp [hz]
          · have : l = setPR (mkLevel Rx A) (Co.transfer_operators A).1
                (Co.transfer_operators A).2 := by
              simpa using congrArg (fun t => t.headD l) h.symm
            rw [this]; rfl
        · -- regular coarsening step; recurse on the coarse matrix
          have hout : initLoop Co Rx prm (fuel + 1) n A
              = (setPR (mkLevel Rx A) (Co.transfer_operators A).1
                    (Co.transfer_operators A).2
                  :: (initLoop Co Rx prm fuel (n + 1)
                      (Co.coarse_operator A (Co.transfer_operators A).1
                        (Co.transfer_operators A).2)).1,
                 (initLoop Co Rx prm fuel (n + 1)
                    (Co.coarse_operator A (Co.transfer_operators A).1
                      (Co.transfer_operators A).2)).2) := by
            simp only [initLoop]
            rw [if_pos hg, if_neg hb, step_down_eq, if_neg hz]
          have hAc := hC A
          obtain ⟨ihP, ihN, ihH⟩ := ih (n + 1)
            (Co.coarse_operator A (Co.transfer_operators A).1
              (Co.transfer_operators A).2)
          have hlink : ∀ l₀ : Level,
              l₀.A = Co.coarse_operator A (Co.transfer_operators A).1
                (Co.transfer_operators A).2 →
              linkOK (setPR (mkLevel Rx A) (Co.transfer_operators A).1
                (Co.transfer_operators A).2) l₀ := by
            intro l₀ hl₀
            constructor
            · show (some (Co.transfer_operators A).1).map _ = some l₀.A.glob_rows
              simp [hl₀, hAc.2]
            · show (some (Co.transfer_operators A).2).map _ = some l₀.A.glob_rows
              simp [hl₀, hAc.1, hAc.2]
          rw [hout]
          refine ⟨fun A' hA' => ⟨fun hnil => ?_, fun hle => ?_⟩,
            fun h => ?_, fun l ls h => ?_⟩
          · exact absurd hnil (by simp)
          · -- pending matrix: append it and link through the suffix
            obtain ⟨h1, h2⟩ := ihP A' hA'
            have hle' : (n + 1) + (initLoop Co Rx prm fuel (n + 1)
                (Co.coarse_operator A (Co.transfer_operators A).1
                  (Co.transfer_operators A).2)).1.length + 1
                ≤ prm.max_levels := by
              simp at hle
              omega
            have hlinked := h2 hle'
            cases htail : (initLoop Co Rx prm fuel (n + 1)
                (Co.coarse_operator A (Co.transfer_operators A).1
                  (Co.transfer_operators A).2)).1 with
            | nil =>
              have hAA := h1 htail
              rw [htail] at hlinked
              exact ⟨hlink (mkLevel Rx A') (by rw [hAA]; rfl), hlinked⟩
            | cons l₀ ls₀ =>
              have hl₀ := ihH l₀ ls₀ htail
              rw [htail] at hlinked
              exact ⟨hlink l₀ hl₀, hlinked⟩
          · -- loop ended by degeneracy deeper down
            obtain ⟨hne, hlinked⟩ := ihN h
            refine ⟨by simp, ?_⟩
            cases htail : (initLoop Co Rx prm fuel (n + 1)
                (Co.coarse_operator A (Co.transfer_operators A).1
                  (Co.transfer_operators A).2)).1 with
            | nil => exact absurd htail hne
            | cons l₀ ls₀ =>
              have hl₀ := ihH l₀ ls₀ htail
              rw [htail] at hlinked
              exact ⟨hlink l₀ hl₀, hlinked⟩
          · have : l = setPR (mkLevel Rx A) (Co.transfer_operators A).1
                (Co.transfer_operators A).2 := by
              simpa using congrArg (fun t => t.headD l) h.symm
            rw [this]; rfl
    · -- loop guard false: exit with the pending matrix
      have hout : initLoop Co Rx prm (fuel + 1) n A = ([], some A) := by
        simp only [initLoop]
        rw [if_neg hg]
      rw [hout]
      refine ⟨fun A' hA' => ⟨fun _ => ?_, fun _ => ?_⟩,
        fun h => by simp at h, fun l ls h => by simp at h⟩
      · exact (Option.some.injEq _ _ ▸ hA').symm
      · show linked lastNullOrDegenerate ([] ++ [mkLevel Rx A'])
        exact Or.inl ⟨rfl, rfl⟩

/-- Claim C7 as amended: assuming the coarsening collaborator's dimension
contract, in every built hierarchy whose level count stays within max_levels
(this excludes the max_levels overrun of the C2 bug), every non-coarsest
level has non-null P and R whose recorded dimensions match the next level's
global size, and the coarsest level has P and R null — unless construction
stopped on degenerate coarsening, in which case the coarsest level keeps the
degenerate non-null P (with zero global columns) and R. -/
theorem C7_amended_linked (Co : Coarsening) (Rx : DMatrix → RelaxOracle)
    (prm : Params) (A : DMatrix) (hC : dimContract Co)
    (hlen : (initLevels Co Rx prm A).length ≤ prm.max_levels) :
    linked lastNullOrDegenerate (initLevels Co Rx prm A) := by
  have main := initLoop_linked Co Rx prm hC prm.max_levels 0 A
  rcases hout : initLoop Co Rx prm prm.max_levels 0 A with ⟨suffix, pend⟩
  rw [hout] at main
  have hIL : ∀ p s, initLoop Co Rx prm prm.max_levels 0 A = (s, p) →
      initLevels Co Rx prm A = (match p with
        | some A' => s ++ [mkLevel Rx A']
        | none => s) := by
    intro p s h
    cases p <;> simp only [initLevels, h]
  cases pend with
  | some A' =>
    have hIL' : initLevels Co Rx prm A = suffix ++ [mkLevel Rx A'] :=
      hIL (some A') suffix hout
    rw [hIL'] at hlen ⊢
    refine (main.1 A' rfl).2 ?_
    show 0 + suffix.length + 1 ≤ prm.max_levels
    simp only [List.length_append, List.length_cons, List.length_nil] at hlen
    omega
  | none =>
    have hIL' : initLevels Co Rx prm A = suffix := hIL none suffix hout
    rw [hIL']
    exact (main.2.1 rfl).2

theorem C7_amended_witness :
    dimContract coarsenHalf
    ∧ (initLevels coarsenHalf RxId prmML10 A2000).length ≤ prmML10.max_levels
    ∧ linked lastNullOrDegenerate (initLevels coarsenHalf RxId prmML10 A2000) :=
  ⟨fun A => ⟨rfl, rfl⟩, by decide,
   C7_amended_linked coarsenHalf RxId prmML10 A2000 (fun A => ⟨rfl, rfl⟩)
     (by decide)⟩

end AMG
